import Mathlib

/-!
Shallow embedding of the Ultimate-Guitar top-tabs scraper repository
(src/scraper.py, src/merge_ug.py, src/server.py).

Python dicts are modelled as insertion-ordered association lists
(`Dict α := List (String × α)`): `dictInsert` replaces the first entry
with the same key in place (as CPython dicts keep the original
insertion position on update) and appends a fresh key at the end;
`dictGet` returns the first entry's value.  Python ints are `Int`,
floats that are only stored and compared (the `rating` field) are
`Rat`, `None` is `Option.none`.  Python's stable `list.sort(key=...)`
is modelled by `List.insertionSort` over the key order, which is also
stable for ties.
-/

namespace UG

/-- Insertion-ordered dictionary, as a `(key, value)` association list. -/
abbrev Dict (α : Type) := List (String × α)

/-- `d.get(k)`: first value bound to `k`, if any. -/
def dictGet {α : Type} (k : String) : Dict α → Option α
  | [] => none
  | (k', v) :: rest => if k' = k then some v else dictGet k rest

/-- `d[k] = v`: replace the first binding of `k` in place, else append. -/
def dictInsert {α : Type} (k : String) (v : α) : Dict α → Dict α
  | [] => [(k, v)]
  | (k', v') :: rest =>
      if k' = k then (k, v) :: rest else (k', v') :: dictInsert k v rest

/-- The scraper's `Row` dataclass (src/scraper.py): artist, song, canonical
type key, URL (the dedup key), hits, and optional rating and votes. -/
structure Row where
  artist : String
  song : String
  type : String
  url : String
  hits : Int
  rating : Option Rat
  votes : Option Int
deriving DecidableEq

/-- One partial observation folded into the live per-field merge, covering
the three merge sites of the code: an entry of the hits-ordered list of
`_build_rows_for_type` (tab data joined with the `hits_by_id` lookup, whose
default is 0), an entry of the rating-ordered list, and a whole per-type
`Row` folded by the cross-type loop of `scrape_all`.  `artist`/`song` hold
the already-stripped name strings; `""` means the name was absent. -/
inductive Obs where
  | hitsO (url ty artist song : String) (hits : Int)
  | ratingO (url ty artist song : String) (rating : Option Rat) (votes : Option Int)
  | rowO (r : Row)
deriving DecidableEq

/-- The identifier (URL key) an observation is about. -/
def Obs.url : Obs → String
  | .hitsO u _ _ _ _ => u
  | .ratingO u _ _ _ _ _ => u
  | .rowO r => r.url

/-- The hits value an observation supplies, if any: the hits-list entries
always supply one (`hits_by_id.get(tid, 0)`), the rating list never does,
and a whole row carries its `hits` field. -/
def Obs.suppliedHits : Obs → Option Int
  | .hitsO _ _ _ _ h => some h
  | .ratingO _ _ _ _ _ _ => none
  | .rowO r => some r.hits

/-- Both identity fields are present (non-empty after stripping).  Whole
rows folded by `scrape_all` were built with non-empty names already. -/
def Obs.named : Obs → Prop
  | .hitsO _ _ artist song _ => artist ≠ "" ∧ song ≠ ""
  | .ratingO _ _ artist song _ _ => artist ≠ "" ∧ song ≠ ""
  | .rowO _ => True

/-- An observation of the live listings (not a whole-row cross-type fold). -/
def Obs.live : Obs → Prop
  | .hitsO _ _ _ _ _ => True
  | .ratingO _ _ _ _ _ _ => True
  | .rowO _ => False

instance : DecidablePred Obs.named := fun o => by cases o <;> simp [Obs.named] <;> infer_instance

/-- One merge step, exactly as the three code sites do it.

* hits list (scraper.py lines 216-238): skip unless both names are
  non-empty; then update `hits` only when the new value is truthy
  (non-zero) and strictly greater, or create the row with
  `rating = votes = None`;
* rating list (lines 259-292): for an existing row overwrite `rating`
  and `votes` when supplied (names and hits untouched); otherwise create
  only when both names are non-empty, with `hits = 0`;
* cross-type fold (scrape_all, lines 318-329): max-update `hits` under
  the same truthiness guard, overwrite `rating`/`votes` when supplied,
  or insert the whole row. -/
def applyObs (m : Dict Row) : Obs → Dict Row
  | .hitsO url ty artist song hits =>
      if artist = "" ∨ song = "" then m
      else
        match dictGet url m with
        | some r =>
            if hits ≠ 0 ∧ hits > r.hits then dictInsert url { r with hits := hits } m else m
        | none =>
            dictInsert url ⟨artist, song, ty, url, hits, none, none⟩ m
  | .ratingO url ty artist song rating votes =>
      match dictGet url m with
      | some r =>
          let r1 := match rating with | some q => { r with rating := some q } | none => r
          let r2 := match votes with | some v => { r1 with votes := some v } | none => r1
          dictInsert url r2 m
      | none =>
          if artist = "" ∨ song = "" then m
          else dictInsert url ⟨artist, song, ty, url, 0, rating, votes⟩ m
  | .rowO row =>
      match dictGet row.url m with
      | some r =>
          let r1 := if row.hits ≠ 0 ∧ row.hits > r.hits then { r with hits := row.hits } else r
          let r2 := match row.rating with | some q => { r1 with rating := some q } | none => r1
          let r3 := match row.votes with | some v => { r2 with votes := some v } | none => r2
          dictInsert row.url r3 m
      | none => dictInsert row.url row m

/-- Fold a sequence of observations into the (initially empty) mapping. -/
def mergeObs (obs : List Obs) : Dict Row := obs.foldl applyObs []

/-- The hits values supplied by the observations about identifier `u`. -/
def suppliedHitsFor (u : String) (obs : List Obs) : List Int :=
  obs.filterMap fun o => if o.url = u then o.suppliedHits else none

/-- Maximum hits supplied for `u` across a sequence, 0 when none supplied one. -/
def maxSuppliedHits (u : String) (obs : List Obs) : Int :=
  (suppliedHitsFor u obs).foldl max 0

/-- A raw JSON row as read by merge_ug.py: every field it touches is
accessed with `.get`, so every field may be absent (`none`). -/
structure JRow where
  url : Option String
  type : Option String
  artist : Option String
  song : Option String
  hits : Option Int
  rating : Option Rat
  votes : Option Int
deriving DecidableEq

/-- The dedup key: `r.get("url")`, with `if not url: continue`, so a
missing or empty URL means no key. -/
def JRow.urlKey (r : JRow) : Option String :=
  match r.url with
  | none => none
  | some u => if u = "" then none else some u

/-- `r.get("hits") or 0`. -/
def JRow.hitsD (r : JRow) : Int := r.hits.getD 0

/-- `r.get("type") or ""`. -/
def JRow.typeD (r : JRow) : String := r.type.getD ""

/-- `r.get("artist") or ""`. -/
def JRow.artistD (r : JRow) : String := r.artist.getD ""

/-- `r.get("song") or ""`. -/
def JRow.songD (r : JRow) : String := r.song.getD ""

/-- One step of merge_ug.py's dedup loop: skip keyless rows; first row
for a key wins unless a later whole row has strictly greater hits. -/
def dedupStep (m : Dict JRow) (r : JRow) : Dict JRow :=
  match r.urlKey with
  | none => m
  | some u =>
      match dictGet u m with
      | none => dictInsert u r m
      | some cur => if r.hitsD > cur.hitsD then dictInsert u r m else m

/-- merge_ug.py's `by_url` dict after folding all input rows. -/
def dedupByUrl (rows : List JRow) : Dict JRow := rows.foldl dedupStep []

/-- The sort key of merge_ug.py line 41, as a lexicographic tuple:
`(type or "", -(hits or 0), artist or "", song or "")` ascending.
Strings are compared as Python compares them: lexicographically by
code point, modelled on their character lists. -/
def JRow.sortKey (r : JRow) : List Char ×ₗ Int ×ₗ List Char ×ₗ List Char :=
  toLex (r.typeD.data, toLex (-r.hitsD, toLex (r.artistD.data, r.songD.data)))

/-- Row-level order used by merge_ug.py's stable sort. -/
def mergeRowLe (a b : JRow) : Prop := a.sortKey ≤ b.sortKey

instance : DecidableRel mergeRowLe := fun a b =>
  inferInstanceAs (Decidable (a.sortKey ≤ b.sortKey))

/-- merge_ug.py's output row list: dedup by URL, then the stable sort. -/
def mergeUgRows (rows : List JRow) : List JRow :=
  List.insertionSort mergeRowLe ((dedupByUrl rows).map Prod.snd)

/-- merge_ug.py's output payload (meta + rows); the timestamp is the
wall-clock reading, modelled as an abstract rational. -/
structure UgPayload where
  scraped_at : Rat
  source_files : List String
  row_count : Nat
  rows : List JRow
deriving DecidableEq

/-- merge_ug.py main: build payload from the concatenated input rows. -/
def mergeUgPayload (rows : List JRow) (now : Rat) (sources : List String) : UgPayload :=
  { scraped_at := now
    source_files := sources
    row_count := (mergeUgRows rows).length
    rows := mergeUgRows rows }

/-- The sort key of scraper.py lines 332-334: `(r.hits, r.rating or 0.0)`
with `reverse=True`, i.e. hits descending then rating descending. -/
def Row.sortKey (r : Row) : Int ×ₗ Rat :=
  toLex (r.hits, r.rating.getD 0)

/-- Row-level order used by `scrape_all`'s stable descending sort. -/
def scrapeRowLe (a b : Row) : Prop := b.sortKey ≤ a.sortKey

instance : DecidableRel scrapeRowLe := fun a b =>
  inferInstanceAs (Decidable (b.sortKey ≤ a.sortKey))

/-- `scrape_all`'s sorted row list for persistence. -/
def scrapeRows (obs : List Obs) : List Row :=
  List.insertionSort scrapeRowLe ((mergeObs obs).map Prod.snd)

/-- The configured type keys, in iteration order (TYPE_PARAM). -/
def typeKeys : List String := ["chords", "tab", "guitar_pro", "ukulele", "bass"]

/-- The object `scrape_all` serializes: meta (scraped_at, types,
row_count) and the sorted rows. -/
structure ScrapeOut where
  scraped_at : Rat
  types : List String
  row_count : Nat
  rows : List Row
deriving DecidableEq

/-- `scrape_all`'s merge-and-serialize pipeline on a given observation
sequence at wall-clock reading `now` (which enters only `meta.scraped_at`,
via `_now_iso()`). -/
def scrapePipeline (obs : List Obs) (now : Rat) : ScrapeOut :=
  { scraped_at := now
    types := typeKeys
    row_count := (scrapeRows obs).length
    rows := scrapeRows obs }

/-- A file system as a map from paths to contents. -/
def FS : Type := String → Option String

/-- Writing a file (`open(p, "w")` + write, or `Path.write_text`). -/
def fsWrite (p c : String) (fs : FS) : FS :=
  fun q => if q = p then some c else fs q

/-- `os.replace(src, dst)`: atomic rename over the destination. -/
def fsReplace (src dst : String) (fs : FS) : FS :=
  fun q => if q = dst then fs src else if q = src then none else fs q

/-- CACHE_PATH / OUT_PATH: `data/ug_top.json`. -/
def cachePath : String := "data/ug_top.json"

/-- `CACHE_PATH.with_suffix(".tmp")`: `data/ug_top.tmp`. -/
def tmpPath : String := "data/ug_top.tmp"

/-- scraper.py lines 345-348: write the payload to the temporary path,
then `os.replace` it over the canonical path. -/
def scraperSave (content : String) (fs : FS) : FS :=
  fsReplace tmpPath cachePath (fsWrite tmpPath content fs)

/-- A crash state of the scraper save before the rename: the temporary
file holds whatever part of the content made it to disk. -/
def scraperCrash (written : String) (fs : FS) : FS :=
  fsWrite tmpPath written fs

/-- merge_ug.py lines 52-53: `OUT_PATH.write_text(...)` writes the
canonical path directly, with no temporary file and no rename. -/
def mergeUgSave (content : String) (fs : FS) : FS :=
  fsWrite cachePath content fs

/-- A crash state of the merge_ug save: the canonical file itself holds
whatever part of the content made it to disk. -/
def mergeUgCrash (written : String) (fs : FS) : FS :=
  fsWrite cachePath written fs

/-- The state of the persisted snapshot's timestamp, as `_cache_is_fresh`
observes it after `_load_existing` and `meta.get("scraped_at")`:
the timestamp field may be missing, unparseable, or an instant
(modelled as rational hours). -/
inductive TsField where
  | missing
  | unparseable
  | parsed (t : Rat)
deriving DecidableEq

/-- `_cache_is_fresh` (scraper.py lines 94-107) over the abstract
snapshot state: `none` when no snapshot loads (file absent, unreadable,
or empty); otherwise false unless the timestamp parses and
`now - t <= maxAgeHours`. -/
def cacheIsFresh (snap : Option TsField) (now maxAgeHours : Rat) : Bool :=
  match snap with
  | none => false
  | some .missing => false
  | some .unparseable => false
  | some (.parsed t) => now - t ≤ maxAgeHours

/-- The hits value a record contributes as the running base of the
maximum: its `hits` when present, 0 when the identifier is absent. -/
def baseHits : Option Row → Int
  | some r => r.hits
  | none => 0

/-- The ordering the spec claims for persisted rows, on the raw rows of
the cross-file dedup path: category ascending, then hits descending,
then artist, then song, both ascending, strings compared by code
point. -/
def claimOrderDedup (a b : JRow) : Prop :=
  a.typeD.data < b.typeD.data ∨ a.typeD.data = b.typeD.data ∧
    (b.hitsD < a.hitsD ∨ a.hitsD = b.hitsD ∧
      (a.artistD.data < b.artistD.data ∨ a.artistD.data = b.artistD.data ∧
        a.songD.data ≤ b.songD.data))

/-- The same claimed persistence ordering, on the live-scrape rows. -/
def claimOrderLive (a b : Row) : Prop :=
  a.type.data < b.type.data ∨ a.type.data = b.type.data ∧
    (b.hits < a.hits ∨ a.hits = b.hits ∧
      (a.artist.data < b.artist.data ∨ a.artist.data = b.artist.data ∧
        a.song.data ≤ b.song.data))

instance : DecidableRel claimOrderDedup := fun a b => by
  unfold claimOrderDedup; infer_instance

instance : DecidableRel claimOrderLive := fun a b => by
  unfold claimOrderLive; infer_instance

instance : IsTotal JRow mergeRowLe :=
  ⟨fun a b => le_total a.sortKey b.sortKey⟩

instance : IsTrans JRow mergeRowLe :=
  ⟨fun _ _ _ h h' => le_trans h h'⟩

instance : IsTotal Row scrapeRowLe :=
  ⟨fun a b => (le_total b.sortKey a.sortKey)⟩

instance : IsTrans Row scrapeRowLe :=
  ⟨fun _ _ _ h h' => le_trans h' h⟩

/-! ### Dictionary lemmas -/

theorem dictGet_insert_self {α : Type} (k : String) (v : α) (m : Dict α) :
    dictGet k (dictInsert k v m) = some v := by
  induction m with
  | nil => simp [dictGet, dictInsert]
  | cons p rest ih =>
      obtain ⟨k', v'⟩ := p
      by_cases h : k' = k <;> simp [dictGet, dictInsert, h, ih]

theorem dictGet_insert_ne {α : Type} {k k' : String} (h : k' ≠ k) (v : α) (m : Dict α) :
    dictGet k (dictInsert k' v m) = dictGet k m := by
  induction m with
  | nil => simp [dictGet, dictInsert, h]
  | cons p rest ih =>
      obtain ⟨k'', v''⟩ := p
      by_cases h2 : k'' = k'
      · subst h2
        simp [dictGet, dictInsert, h]
      · by_cases h3 : k'' = k <;>
          simp [dictGet, dictInsert, h2, h3, ih, Ne.symm h]

theorem dictGet_mem {α : Type} {k : String} {v : α} :
    ∀ {m : Dict α}, dictGet k m = some v → (k, v) ∈ m := by
  intro m
  induction m with
  | nil => simp [dictGet]
  | cons p rest ih =>
      obtain ⟨k', v'⟩ := p
      by_cases h : k' = k <;> simp only [dictGet, h, if_true, if_false, ite_true, ite_false,
        Option.some.injEq, List.mem_cons] <;> intro hg
      · subst h
        exact Or.inl (by rw [hg])
      · exact Or.inr (ih hg)

theorem mem_dictInsert {α : Type} {p : String × α} {k : String} {v : α} :
    ∀ {m : Dict α}, p ∈ dictInsert k v m → p = (k, v) ∨ p ∈ m := by
  intro m
  induction m with
  | nil => simp [dictInsert]
  | cons q rest ih =>
      obtain ⟨k', v'⟩ := q
      by_cases h : k' = k <;>
        simp only [dictInsert, h, ite_true, ite_false, List.mem_cons] <;> intro hg
      · tauto
      · rcases hg with hg | hg
        · tauto
        · rcases ih hg with hg | hg <;> tauto

theorem mem_keys_insert {α : Type} {x k : String} {v : α} :
    ∀ {m : Dict α}, x ∈ (dictInsert k v m).map Prod.fst → x = k ∨ x ∈ m.map Prod.fst := by
  intro m
  induction m with
  | nil => simp [dictInsert]
  | cons q rest ih =>
      obtain ⟨k', v'⟩ := q
      by_cases h : k' = k <;>
        simp only [dictInsert, h, ite_true, ite_false, List.map_cons, List.mem_cons] <;> intro hg
      · tauto
      · rcases hg with hg | hg
        · tauto
        · rcases ih hg with hg | hg <;> tauto

theorem nodup_keys_insert {α : Type} (k : String) (v : α) :
    ∀ {m : Dict α}, (m.map Prod.fst).Nodup → ((dictInsert k v m).map Prod.fst).Nodup := by
  intro m
  induction m with
  | nil => simp [dictInsert]
  | cons q rest ih =>
      obtain ⟨k', v'⟩ := q
      by_cases h : k' = k
      · subst h
        simp only [dictInsert, ite_true, List.map_cons, List.nodup_cons]
        exact fun hnd => hnd
      · simp only [dictInsert, h, ite_false, List.map_cons, List.nodup_cons]
        rintro ⟨hk', hnd⟩
        refine ⟨fun hx => ?_, ih hnd⟩
        rcases mem_keys_insert hx with h1 | h1
        · exact h h1
        · exact hk' h1

end UG

namespace UG

/-! ### C6: atomic persistence -/

/-- C6 counterexample: the claim says both persistence paths write to a
temporary file and atomically rename it over the canonical path, so a
failure before the rename leaves the previous snapshot unchanged.  The
cross-file dedup path (merge_ug.py) instead writes the canonical path
directly: starting from a file system whose canonical snapshot holds
"old-snapshot", a crash after the write has put down only the empty
prefix of the new content leaves the canonical file changed. -/
theorem mergeUg_save_clobbers_cex :
    mergeUgCrash "" (fun q => if q = cachePath then some "old-snapshot" else none) cachePath
      ≠ (fun q => if q = cachePath then some "old-snapshot" else none : FS) cachePath := by
  decide

/-- C6 (amended): the live-scrape path writes the payload to a temporary
path in the same directory and atomically renames it over the canonical
path, so any crash state before the rename — the temporary file holding
any portion `w` of the content — leaves the previously persisted
canonical file byte-for-byte unchanged, and a completed save installs
exactly the new content; the cross-file dedup path writes the canonical
path directly and has no such guarantee. -/
theorem scraper_save_atomic (fs : FS) (c w : String) :
    scraperCrash w fs cachePath = fs cachePath ∧ scraperSave c fs cachePath = some c := by
  constructor
  · simp [scraperCrash, fsWrite, cachePath, tmpPath]
  · simp [scraperSave, fsReplace, fsWrite, cachePath, tmpPath]

/-! ### C7: freshness check -/

/-- C7: `_cache_is_fresh` returns false when no snapshot loads, when the
metadata timestamp is missing or unparseable, and when the snapshot's
age `now - t` exceeds the max age; for a snapshot stamped `t` it returns
true at `now = t + H/2` and false at `now = t + 3H/2`. -/
theorem cache_is_fresh_spec (now t maxAge : Rat) :
    cacheIsFresh none now maxAge = false ∧
    cacheIsFresh (some .missing) now maxAge = false ∧
    cacheIsFresh (some .unparseable) now maxAge = false ∧
    (maxAge < now - t → cacheIsFresh (some (.parsed t)) now maxAge = false) ∧
    (0 ≤ maxAge → cacheIsFresh (some (.parsed t)) (t + maxAge / 2) maxAge = true) ∧
    (0 < maxAge → cacheIsFresh (some (.parsed t)) (t + 3 * maxAge / 2) maxAge = false) := by
  refine ⟨rfl, rfl, rfl, ?_, ?_, ?_⟩
  · intro h
    simp only [cacheIsFresh, decide_eq_false_iff_not]
    exact not_le_of_lt h
  · intro h
    simp only [cacheIsFresh, decide_eq_true_eq]
    linarith
  · intro h
    simp only [cacheIsFresh, decide_eq_false_iff_not]
    intro hc
    linarith

/-- C7 witness: a snapshot stamped 0 with a 24-hour max age is fresh 12
hours later, stale 36 hours later, and stale when the age exceeds the
max age by an hour. -/
theorem cache_is_fresh_spec_witness :
    cacheIsFresh (some (.parsed 0)) (0 + 24 / 2) 24 = true ∧
    cacheIsFresh (some (.parsed 0)) (0 + 3 * 24 / 2) 24 = false ∧
    cacheIsFresh (some (.parsed 0)) 25 24 = false :=
  ⟨(cache_is_fresh_spec (0 + 24 / 2) 0 24).2.2.2.2.1 (by norm_num),
   (cache_is_fresh_spec (0 + 3 * 24 / 2) 0 24).2.2.2.2.2 (by norm_num),
   (cache_is_fresh_spec 25 0 24).2.2.2.1 (by norm_num)⟩

/-! ### C9: determinism of the pipeline -/

/-- C9 counterexample: the serialized snapshot includes
`meta.scraped_at`, taken from the wall clock at each run, so two runs of
the pipeline on the same observation set (here: the empty set) at
different clock readings produce different serialized objects. -/
theorem scrape_pipeline_not_identical_cex :
    scrapePipeline [] 0 ≠ scrapePipeline [] 1 := by
  decide

/-- C9 (amended): the pipeline is deterministic in the observation set
except for the metadata timestamp: two runs on the same observations
agree byte-for-byte on everything but `meta.scraped_at` (rows, row
count and type inventory are equal, and the outputs are equal once the
timestamp is overwritten). -/
theorem scrape_pipeline_deterministic (obs : List Obs) (n1 n2 : Rat) :
    scrapePipeline obs n1 = { scrapePipeline obs n2 with scraped_at := n1 } :=
  rfl

end UG

namespace UG

/-! ### Structural lemmas about one merge step -/

theorem applyObs_get_ne {o : Obs} {u : String} (h : o.url ≠ u) (m : Dict Row) :
    dictGet u (applyObs m o) = dictGet u m := by
  cases o with
  | hitsO url ty a s hi =>
      simp only [Obs.url] at h
      simp only [applyObs]
      repeat' split
      all_goals first | rfl | exact dictGet_insert_ne h _ m
  | ratingO url ty a s rat vo =>
      simp only [Obs.url] at h
      simp only [applyObs]
      repeat' split
      all_goals first | rfl | exact dictGet_insert_ne h _ m
  | rowO row =>
      simp only [Obs.url] at h
      simp only [applyObs]
      repeat' split
      all_goals first | rfl | exact dictGet_insert_ne h _ m

theorem applyObs_shape (m : Dict Row) (o : Obs) :
    applyObs m o = m ∨ ∃ k v, applyObs m o = dictInsert k v m := by
  cases o with
  | hitsO url ty a s hi =>
      simp only [applyObs]
      repeat' split
      all_goals first | exact Or.inl rfl | exact Or.inr ⟨_, _, rfl⟩
  | ratingO url ty a s rat vo =>
      simp only [applyObs]
      repeat' split
      all_goals first | exact Or.inl rfl | exact Or.inr ⟨_, _, rfl⟩
  | rowO row =>
      simp only [applyObs]
      repeat' split
      all_goals first | exact Or.inl rfl | exact Or.inr ⟨_, _, rfl⟩

theorem dedupStep_shape (m : Dict JRow) (r : JRow) :
    dedupStep m r = m ∨ ∃ k v, dedupStep m r = dictInsert k v m := by
  simp only [dedupStep]
  repeat' split
  all_goals first | exact Or.inl rfl | exact Or.inr ⟨_, _, rfl⟩

theorem nodup_foldl_applyObs :
    ∀ (l : List Obs) (m : Dict Row), (m.map Prod.fst).Nodup →
      ((l.foldl applyObs m).map Prod.fst).Nodup := by
  intro l
  induction l with
  | nil => exact fun m h => h
  | cons o rest ih =>
      intro m hm
      simp only [List.foldl_cons]
      refine ih _ ?_
      rcases applyObs_shape m o with h | ⟨k, v, h⟩
      · rw [h]; exact hm
      · rw [h]; exact nodup_keys_insert k v hm

theorem nodup_foldl_dedupStep :
    ∀ (l : List JRow) (m : Dict JRow), (m.map Prod.fst).Nodup →
      ((l.foldl dedupStep m).map Prod.fst).Nodup := by
  intro l
  induction l with
  | nil => exact fun m h => h
  | cons r rest ih =>
      intro m hm
      simp only [List.foldl_cons]
      refine ih _ ?_
      rcases dedupStep_shape m r with h | ⟨k, v, h⟩
      · rw [h]; exact hm
      · rw [h]; exact nodup_keys_insert k v hm

/-! ### C2: record creation requires both identity fields -/

/-- C2: in the live merge, an observation about an identifier not yet in
the mapping creates a record only when both the artist and the song name
are non-empty; a metric-only observation (no names) for an unseen
identifier leaves the mapping entirely unchanged. -/
theorem record_creation_requires_names (m : Dict Row) (o : Obs) (ho : o.live)
    (habs : dictGet o.url m = none) :
    (o.named → ∃ r, dictGet o.url (applyObs m o) = some r) ∧
    (¬ o.named → applyObs m o = m) := by
  cases o with
  | hitsO url ty a s hi =>
      simp only [Obs.url] at habs ⊢
      constructor
      · rintro ⟨ha, hs⟩
        refine ⟨⟨a, s, ty, url, hi, none, none⟩, ?_⟩
        simp only [applyObs, habs]
        rw [if_neg (by simp [ha, hs])]
        exact dictGet_insert_self _ _ _
      · intro hn
        simp only [Obs.named, ne_eq, not_and_or, not_not] at hn
        rcases hn with h | h <;> simp [applyObs, h]
  | ratingO url ty a s rat vo =>
      simp only [Obs.url] at habs ⊢
      constructor
      · rintro ⟨ha, hs⟩
        refine ⟨⟨a, s, ty, url, 0, rat, vo⟩, ?_⟩
        simp only [applyObs, habs]
        rw [if_neg (by simp [ha, hs])]
        exact dictGet_insert_self _ _ _
      · intro hn
        simp only [Obs.named, ne_eq, not_and_or, not_not] at hn
        rcases hn with h | h <;> simp [applyObs, habs, h]
  | rowO row => simp [Obs.live] at ho

/-- C2 witness: a rating-list observation carrying only metrics (empty
artist and song) for an unseen identifier is dropped: the mapping stays
empty. -/
theorem record_creation_requires_names_witness :
    applyObs [] (Obs.ratingO "u" "chords" "" "" (some 1) (some 7)) = [] :=
  (record_creation_requires_names [] (Obs.ratingO "u" "chords" "" "" (some 1) (some 7))
    trivial rfl).2 (by decide)

end UG

namespace UG

/-! ### C3: identity fields and category are frozen after creation -/

/-- C3: once a record exists, later observations for the same identifier
never change its artist, song, category or URL — identity fields are
first-write-wins and the category is fixed at creation; only hits,
rating and votes can differ. -/
theorem identity_fields_frozen (m : Dict Row) (o : Obs) (u : String) (r r' : Row)
    (hr : dictGet u m = some r) (hr' : dictGet u (applyObs m o) = some r') :
    r'.artist = r.artist ∧ r'.song = r.song ∧ r'.type = r.type ∧ r'.url = r.url := by
  by_cases hu : o.url = u
  · subst hu
    cases o with
    | hitsO url ty a s hi =>
        simp only [Obs.url] at hr hr'
        simp only [applyObs, hr] at hr'
        split at hr'
        · rw [hr] at hr'
          obtain rfl := Option.some.injEq .. ▸ hr'
          exact ⟨rfl, rfl, rfl, rfl⟩
        · split at hr'
          · rw [dictGet_insert_self] at hr'
            obtain rfl := Option.some.injEq .. ▸ hr'
            exact ⟨rfl, rfl, rfl, rfl⟩
          · rw [hr] at hr'
            obtain rfl := Option.some.injEq .. ▸ hr'
            exact ⟨rfl, rfl, rfl, rfl⟩
    | ratingO url ty a s rat vo =>
        simp only [Obs.url] at hr hr'
        simp only [applyObs, hr] at hr'
        rw [dictGet_insert_self] at hr'
        obtain rfl := Option.some.injEq .. ▸ hr'
        refine ⟨?_, ?_, ?_, ?_⟩ <;> cases rat <;> cases vo <;> rfl
    | rowO row =>
        simp only [Obs.url] at hr hr'
        simp only [applyObs, hr] at hr'
        rw [dictGet_insert_self] at hr'
        obtain rfl := Option.some.injEq .. ▸ hr'
        refine ⟨?_, ?_, ?_, ?_⟩ <;> cases row.rating <;> cases row.votes <;>
          simp [apply_ite]
  · rw [applyObs_get_ne hu, hr] at hr'
    obtain rfl := Option.some.injEq .. ▸ hr'
    exact ⟨rfl, rfl, rfl, rfl⟩

/-- C3 witness: a later rating observation for an existing record
overwrites only rating and votes; the witness checks the identity
fields of the updated record coincide with the original's. -/
theorem identity_fields_frozen_witness :
    (⟨"A", "S", "tab", "u", 3, some 1, some 2⟩ : Row).artist =
        (⟨"A", "S", "tab", "u", 3, none, none⟩ : Row).artist ∧
      (⟨"A", "S", "tab", "u", 3, some 1, some 2⟩ : Row).song =
        (⟨"A", "S", "tab", "u", 3, none, none⟩ : Row).song ∧
      (⟨"A", "S", "tab", "u", 3, some 1, some 2⟩ : Row).type =
        (⟨"A", "S", "tab", "u", 3, none, none⟩ : Row).type ∧
      (⟨"A", "S", "tab", "u", 3, some 1, some 2⟩ : Row).url =
        (⟨"A", "S", "tab", "u", 3, none, none⟩ : Row).url :=
  identity_fields_frozen [("u", ⟨"A", "S", "tab", "u", 3, none, none⟩)]
    (Obs.ratingO "u" "x" "Z" "W" (some 1) (some 2)) "u"
    ⟨"A", "S", "tab", "u", 3, none, none⟩ ⟨"A", "S", "tab", "u", 3, some 1, some 2⟩
    (by decide) (by decide)

/-! ### C4: key uniqueness of the merged mappings -/

/-- C4: both merge modes produce mappings with at most one record per
identifier: the keys of the live merge's mapping and of the cross-file
dedup's mapping contain no duplicates for any input. -/
theorem merged_mapping_keys_unique :
    (∀ obs : List Obs, ((mergeObs obs).map Prod.fst).Nodup) ∧
    (∀ rows : List JRow, ((dedupByUrl rows).map Prod.fst).Nodup) :=
  ⟨fun obs => nodup_foldl_applyObs obs [] List.nodup_nil,
   fun rows => nodup_foldl_dedupStep rows [] List.nodup_nil⟩

end UG

namespace UG

/-! ### C10: rows without a usable URL are dropped -/

theorem dedup_values_keyed :
    ∀ (l : List JRow) (m : Dict JRow),
      (∀ p ∈ m, (p : String × JRow).2.urlKey = some p.1) →
      ∀ p ∈ l.foldl dedupStep m, (p : String × JRow).2.urlKey = some p.1 := by
  intro l
  induction l with
  | nil => exact fun m hm => hm
  | cons r rest ih =>
      intro m hm
      simp only [List.foldl_cons]
      refine ih _ ?_
      intro p hp
      rcases hk : r.urlKey with _ | u
      · simp only [dedupStep, hk] at hp
        exact hm p hp
      · simp only [dedupStep, hk] at hp
        rcases hg : dictGet u m with _ | cur
        · simp only [hg] at hp
          rcases mem_dictInsert hp with rfl | hp
          · exact hk
          · exact hm p hp
        · simp only [hg] at hp
          by_cases hgt : r.hitsD > cur.hitsD
          · rw [if_pos hgt] at hp
            rcases mem_dictInsert hp with rfl | hp
            · exact hk
            · exact hm p hp
          · rw [if_neg hgt] at hp
            exact hm p hp

/-- C10: in cross-file dedup mode, an input row whose `url` is missing or
empty is silently dropped: every output row has a usable URL key, and
deleting such a row from the input changes neither the output rows nor
the reported payload (so it is never a winner and never counted). -/
theorem keyless_rows_dropped :
    (∀ (rows : List JRow) (r : JRow), r ∈ mergeUgRows rows → r.urlKey ≠ none) ∧
    (∀ (l1 l2 : List JRow) (b : JRow), b.urlKey = none → ∀ (now : Rat) (srcs : List String),
      mergeUgPayload (l1 ++ b :: l2) now srcs = mergeUgPayload (l1 ++ l2) now srcs) := by
  constructor
  · intro rows r hr
    rw [mergeUgRows, List.mem_insertionSort] at hr
    rcases List.mem_map.1 hr with ⟨p, hp, rfl⟩
    rw [dedup_values_keyed rows [] (by simp) p hp]
    exact Option.some_ne_none _
  · intro l1 l2 b hb now srcs
    have hd : dedupByUrl (l1 ++ b :: l2) = dedupByUrl (l1 ++ l2) := by
      rw [dedupByUrl, dedupByUrl, List.foldl_append, List.foldl_append,
        List.foldl_cons, dedupStep, hb]
    rw [mergeUgPayload, mergeUgPayload, mergeUgRows, mergeUgRows, hd]

/-- C10 witness: a row with an empty URL and 100 hits contributes
nothing — the payload equals the one built without it — while a keyed
row survives into the output. -/
theorem keyless_rows_dropped_witness :
    (⟨some "u", some "tab", some "A", some "S", some 5, none, none⟩ : JRow).urlKey ≠ none ∧
    mergeUgPayload ([] ++ (⟨some "", none, none, none, some 100, none, none⟩ : JRow) ::
        [⟨some "u", some "tab", some "A", some "S", some 5, none, none⟩]) 0 [] =
      mergeUgPayload ([] ++ [⟨some "u", some "tab", some "A", some "S", some 5, none, none⟩]) 0 [] :=
  ⟨keyless_rows_dropped.1 [⟨some "u", some "tab", some "A", some "S", some 5, none, none⟩]
      ⟨some "u", some "tab", some "A", some "S", some 5, none, none⟩ (by decide),
   keyless_rows_dropped.2 [] [⟨some "u", some "tab", some "A", some "S", some 5, none, none⟩]
      ⟨some "", none, none, none, some 100, none, none⟩ (by decide) 0 []⟩

end UG

namespace UG

/-! ### C5: whole-record dedup keeps the first row with maximal hits -/

theorem dedup_get_none :
    ∀ (l : List JRow) (m : Dict JRow) (u : String),
      dictGet u (l.foldl dedupStep m) = none →
      dictGet u m = none ∧ ∀ s ∈ l, s.urlKey ≠ some u := by
  intro l
  induction l with
  | nil => exact fun m u h => ⟨h, by simp⟩
  | cons r rest ih =>
      intro m u h
      rw [List.foldl_cons] at h
      obtain ⟨h1, h2⟩ := ih (dedupStep m r) u h
      rcases hk : r.urlKey with _ | ur
      · simp only [dedupStep, hk] at h1
        refine ⟨h1, ?_⟩
        intro s hs
        rcases List.mem_cons.1 hs with rfl | hs
        · simp [hk]
        · exact h2 s hs
      · simp only [dedupStep, hk] at h1
        rcases hg : dictGet ur m with _ | cur <;> simp only [hg] at h1
        · have hne : ur ≠ u := by
            rintro rfl
            rw [dictGet_insert_self] at h1
            cases h1
          rw [dictGet_insert_ne hne] at h1
          refine ⟨h1, ?_⟩
          intro s hs
          rcases List.mem_cons.1 hs with rfl | hs
          · simp [hk, hne]
          · exact h2 s hs
        · by_cases hgt : r.hitsD > cur.hitsD
          · rw [if_pos hgt] at h1
            have hne : ur ≠ u := by
              rintro rfl
              rw [dictGet_insert_self] at h1
              cases h1
            rw [dictGet_insert_ne hne] at h1
            refine ⟨h1, ?_⟩
            intro s hs
            rcases List.mem_cons.1 hs with rfl | hs
            · simp [hk, hne]
            · exact h2 s hs
          · rw [if_neg hgt] at h1
            have hne : ur ≠ u := by
              rintro rfl
              rw [h1] at hg
              cases hg
            refine ⟨h1, ?_⟩
            intro s hs
            rcases List.mem_cons.1 hs with rfl | hs
            · simp [hk, hne]
            · exact h2 s hs

theorem firstmax_snoc_other {rows : List JRow} {u : String} {r y : JRow}
    (hyk : y.urlKey ≠ some u)
    (h1 : r.urlKey = some u)
    (h2 : ∀ s ∈ rows, s.urlKey = some u → s.hitsD ≤ r.hitsD)
    (h3 : ∃ l1 l2, rows = l1 ++ r :: l2 ∧ ∀ s ∈ l1, s.urlKey = some u → s.hitsD < r.hitsD) :
    r.urlKey = some u ∧
      (∀ s ∈ rows ++ [y], s.urlKey = some u → s.hitsD ≤ r.hitsD) ∧
      ∃ l1 l2, rows ++ [y] = l1 ++ r :: l2 ∧
        ∀ s ∈ l1, s.urlKey = some u → s.hitsD < r.hitsD := by
  obtain ⟨l1, l2, rfl, h3⟩ := h3
  refine ⟨h1, ?_, ⟨l1, l2 ++ [y], by simp, h3⟩⟩
  intro s hs hks
  rcases List.mem_append.1 hs with hs | hs
  · exact h2 s hs hks
  · rw [List.mem_singleton.1 hs] at hks
    exact absurd hks hyk

/-- C5: in cross-file dedup mode, the record kept for a URL key is one
of the input rows kept wholesale (no field-level merging), it carries
that key, its hits (null as 0) are maximal among all rows sharing the
key, and every earlier row with the key has strictly smaller hits — so
a later row replaces the kept one only when strictly greater, and ties
keep the first-encountered row. -/
theorem dedup_keeps_first_max (rows : List JRow) (u : String) (r : JRow)
    (h : dictGet u (dedupByUrl rows) = some r) :
    r.urlKey = some u ∧
      (∀ s ∈ rows, s.urlKey = some u → s.hitsD ≤ r.hitsD) ∧
      ∃ l1 l2, rows = l1 ++ r :: l2 ∧
        ∀ s ∈ l1, s.urlKey = some u → s.hitsD < r.hitsD := by
  induction rows using List.reverseRecOn generalizing r with
  | nil => simp [dedupByUrl, dictGet] at h
  | append_singleton rows y ih =>
      have hfold : dedupByUrl (rows ++ [y]) = dedupStep (dedupByUrl rows) y := by
        rw [dedupByUrl, dedupByUrl, List.foldl_append, List.foldl_cons, List.foldl_nil]
      rw [hfold] at h
      rcases hk : y.urlKey with _ | uy
      · simp only [dedupStep, hk] at h
        exact firstmax_snoc_other (by simp [hk]) (ih r h).1 (ih r h).2.1 (ih r h).2.2
      · simp only [dedupStep, hk] at h
        by_cases huy : uy = u
        · subst huy
          rcases hg : dictGet uy (dedupByUrl rows) with _ | cur <;> simp only [hg] at h
          · rw [dictGet_insert_self] at h
            obtain rfl : y = r := Option.some.injEq .. ▸ h
            have hnone := (dedup_get_none rows [] uy (by simpa [dedupByUrl] using hg)).2
            refine ⟨hk, ?_, ⟨rows, [], rfl, ?_⟩⟩
            · intro s hs hks
              rcases List.mem_append.1 hs with hs | hs
              · exact absurd hks (hnone s hs)
              · rw [List.mem_singleton.1 hs]
            · intro s hs hks
              exact absurd hks (hnone s hs)
          · by_cases hgt : y.hitsD > cur.hitsD
            · rw [if_pos hgt, dictGet_insert_self] at h
              obtain rfl : y = r := Option.some.injEq .. ▸ h
              obtain ⟨hc1, hc2, _⟩ := ih cur hg
              refine ⟨hk, ?_, ⟨rows, [], rfl, ?_⟩⟩
              · intro s hs hks
                rcases List.mem_append.1 hs with hs | hs
                · exact le_of_lt (lt_of_le_of_lt (hc2 s hs hks) hgt)
                · rw [List.mem_singleton.1 hs]
              · intro s hs hks
                exact lt_of_le_of_lt (hc2 s hs hks) hgt
            · rw [if_neg hgt] at h
              have hcr : cur = r := Option.some.inj (hg.symm.trans h)
              obtain ⟨h1, h2, h3⟩ := ih r h
              obtain ⟨l1, l2, heq, h3⟩ := h3
              refine ⟨h1, ?_, ⟨l1, l2 ++ [y], by simp [heq], h3⟩⟩
              intro s hs hks
              rcases List.mem_append.1 hs with hs | hs
              · exact h2 s hs hks
              · rw [List.mem_singleton.1 hs]
                rw [hcr] at hgt
                exact le_of_not_lt hgt
        · have hyk : y.urlKey ≠ some u := by simp [hk, huy]
          rcases hg : dictGet uy (dedupByUrl rows) with _ | cur <;> simp only [hg] at h
          · rw [dictGet_insert_ne huy] at h
            exact firstmax_snoc_other hyk (ih r h).1 (ih r h).2.1 (ih r h).2.2
          · by_cases hgt : y.hitsD > cur.hitsD
            · rw [if_pos hgt, dictGet_insert_ne huy] at h
              exact firstmax_snoc_other hyk (ih r h).1 (ih r h).2.1 (ih r h).2.2
            · rw [if_neg hgt] at h
              exact firstmax_snoc_other hyk (ih r h).1 (ih r h).2.1 (ih r h).2.2

/-- C5 witness: two whole records sharing a URL with hits 100 and 50
merge to the hits-100 record in both input orders, and the kept record
is maximal and strictly dominates every earlier same-key row. -/
theorem dedup_keeps_first_max_witness :
    (⟨some "u", some "tab", some "A", some "S", some 100, none, none⟩ : JRow).urlKey = some "u" ∧
      (∀ s ∈ [(⟨some "u", some "tab", some "A", some "S", some 50, none, none⟩ : JRow),
              ⟨some "u", some "tab", some "A", some "S", some 100, none, none⟩],
        s.urlKey = some "u" →
          s.hitsD ≤ (⟨some "u", some "tab", some "A", some "S", some 100, none, none⟩ : JRow).hitsD) ∧
      (∃ l1 l2, [(⟨some "u", some "tab", some "A", some "S", some 50, none, none⟩ : JRow),
              ⟨some "u", some "tab", some "A", some "S", some 100, none, none⟩] =
            l1 ++ (⟨some "u", some "tab", some "A", some "S", some 100, none, none⟩ : JRow) :: l2 ∧
          ∀ s ∈ l1, s.urlKey = some "u" →
            s.hitsD < (⟨some "u", some "tab", some "A", some "S", some 100, none, none⟩ : JRow).hitsD) ∧
    dictGet "u" (dedupByUrl [⟨some "u", some "tab", some "A", some "S", some 100, none, none⟩,
        ⟨some "u", some "tab", some "A", some "S", some 50, none, none⟩]) =
      some ⟨some "u", some "tab", some "A", some "S", some 100, none, none⟩ :=
  have h := dedup_keeps_first_max
    [⟨some "u", some "tab", some "A", some "S", some 50, none, none⟩,
     ⟨some "u", some "tab", some "A", some "S", some 100, none, none⟩] "u"
    ⟨some "u", some "tab", some "A", some "S", some 100, none, none⟩ (by decide)
  ⟨h.1, h.2.1, h.2.2, by decide⟩

end UG

namespace UG

/-! ### C8: persistence ordering -/

/-- C8 counterexample: the claim says both persistence paths order rows
by category ascending, then hits descending, then artist, then song.
The live-scrape path actually sorts by hits descending then rating
descending only: with a "tab" row of 10 hits and a "chords" row of 5
hits, the claimed ordering puts "chords" first, but `scrape_all` puts
the "tab" row first, so its output violates the claimed order. -/
theorem scrape_rows_not_claim_sorted_cex :
    ¬ (scrapeRows [Obs.hitsO "u1" "tab" "A" "S" 10,
        Obs.hitsO "u2" "chords" "B" "T" 5]).Sorted claimOrderLive := by
  decide

theorem mergeRowLe_imp_claimOrder {a b : JRow} (h : mergeRowLe a b) :
    claimOrderDedup a b := by
  unfold mergeRowLe JRow.sortKey at h
  rw [Prod.Lex.le_iff] at h
  unfold claimOrderDedup
  rcases h with h | ⟨he, h⟩
  · exact Or.inl h
  · refine Or.inr ⟨he, ?_⟩
    rw [Prod.Lex.le_iff] at h
    rcases h with h | ⟨he2, h⟩
    · exact Or.inl (by simpa using h)
    · refine Or.inr ⟨by simpa using he2, ?_⟩
      rw [Prod.Lex.le_iff] at h
      exact h

theorem scrapeRowLe_imp_desc {a b : Row} (h : scrapeRowLe a b) :
    b.hits < a.hits ∨ a.hits = b.hits ∧ b.rating.getD 0 ≤ a.rating.getD 0 := by
  unfold scrapeRowLe Row.sortKey at h
  rw [Prod.Lex.le_iff] at h
  rcases h with h | ⟨he, h⟩
  · exact Or.inl h
  · exact Or.inr ⟨he.symm, h⟩

/-- C8 (amended): the cross-file dedup path orders its persisted rows by
category ascending, then hits descending, then artist, then song, both
ascending under case-sensitive code-point ordering; the live-scrape
path instead orders by hits descending, then rating descending (null
rating as 0), ignoring category and names. -/
theorem persistence_ordering :
    (∀ rows : List JRow, (mergeUgRows rows).Sorted claimOrderDedup) ∧
    (∀ obs : List Obs, (scrapeRows obs).Sorted
      (fun a b => b.hits < a.hits ∨ a.hits = b.hits ∧ b.rating.getD 0 ≤ a.rating.getD 0)) := by
  constructor
  · intro rows
    exact (List.sorted_insertionSort mergeRowLe _).imp fun h => mergeRowLe_imp_claimOrder h
  · intro obs
    exact (List.sorted_insertionSort scrapeRowLe _).imp fun h => scrapeRowLe_imp_desc h

end UG

namespace UG

/-! ### C1: hits is the monotone maximum of supplied values -/

/-- C1 counterexample, two concrete failures of the claimed max
property, each stating the record's final hits next to the maximum of
the hits values supplied for the identifier (`List.max?` of the
supplied list — the claim's "maximum among all observations that
supplied a non-null value").

1. Name skip: a hits-list observation with empty identity fields is
   skipped by `_build_rows_for_type` (scraper.py line 219) before its
   hits value (100) is folded in; the record is then created by a
   rating-list observation with hits 0, so the final hits are 0 while
   the maximum supplied is 100.

2. All observations named: a rating-list observation creates the
   record with hits 0; a later hits-list observation supplies -3,
   which the guard `if hits and hits > existing.hits` (line 227)
   rejects, so the final hits are 0 while the maximum among the values
   actually supplied is -3. -/
theorem hits_not_max_supplied_cex :
    ((dictGet "u" (mergeObs [Obs.hitsO "u" "chords" "" "Y" 100,
          Obs.ratingO "u" "chords" "A" "Y" none none])).map Row.hits = some 0 ∧
      (suppliedHitsFor "u" [Obs.hitsO "u" "chords" "" "Y" 100,
          Obs.ratingO "u" "chords" "A" "Y" none none]).max? = some 100) ∧
    ((dictGet "u" (mergeObs [Obs.ratingO "u" "chords" "A" "Y" none none,
          Obs.hitsO "u" "chords" "A" "Y" (-3)])).map Row.hits = some 0 ∧
      (suppliedHitsFor "u" [Obs.ratingO "u" "chords" "A" "Y" none none,
          Obs.hitsO "u" "chords" "A" "Y" (-3)]).max? = some (-3)) := by
  refine ⟨⟨by decide, by decide⟩, ⟨by decide, by decide⟩⟩

theorem truthy_update_eq_max {cur h : Int} (hc : 0 ≤ cur) :
    (if h ≠ 0 ∧ h > cur then h else cur) = max cur h := by
  by_cases hgt : cur < h
  · rw [if_pos ⟨by omega, hgt⟩]
    exact (max_eq_right hgt.le).symm
  · rw [if_neg fun hx => hgt hx.2]
    exact (max_eq_left (le_of_not_lt hgt)).symm

theorem applyObs_hits_nonneg {m : Dict Row} {o : Obs}
    (hm : ∀ p ∈ m, 0 ≤ (p : String × Row).2.hits)
    (ho : 0 ≤ o.suppliedHits.getD 0) :
    ∀ p ∈ applyObs m o, 0 ≤ (p : String × Row).2.hits := by
  cases o with
  | hitsO url ty a s hi =>
      simp only [Obs.suppliedHits, Option.getD_some] at ho
      intro p hp
      simp only [applyObs] at hp
      split at hp
      · exact hm p hp
      · rcases hg : dictGet url m with _ | r0 <;> simp only [hg] at hp
        · rcases mem_dictInsert hp with rfl | hp
          · exact ho
          · exact hm p hp
        · split at hp
          · rcases mem_dictInsert hp with rfl | hp
            · exact ho
            · exact hm p hp
          · exact hm p hp
  | ratingO url ty a s rat vo =>
      intro p hp
      simp only [applyObs] at hp
      rcases hg : dictGet url m with _ | r0 <;> simp only [hg] at hp
      · split at hp
        · exact hm p hp
        · rcases mem_dictInsert hp with rfl | hp
          · exact le_refl 0
          · exact hm p hp
      · rcases mem_dictInsert hp with rfl | hp
        · have h0 : 0 ≤ r0.hits := hm _ (dictGet_mem hg)
          cases rat <;> cases vo <;> exact h0
        · exact hm p hp
  | rowO row =>
      simp only [Obs.suppliedHits, Option.getD_some] at ho
      intro p hp
      simp only [applyObs] at hp
      rcases hg : dictGet row.url m with _ | r0 <;> simp only [hg] at hp
      · rcases mem_dictInsert hp with rfl | hp
        · exact ho
        · exact hm p hp
      · rcases mem_dictInsert hp with rfl | hp
        · have h0 : 0 ≤ r0.hits := hm _ (dictGet_mem hg)
          cases row.rating <;> cases row.votes <;>
            simp only [apply_ite (Row.hits)] <;> split <;> first | exact ho | exact h0
        · exact hm p hp

end UG

namespace UG

theorem applyObs_baseHits (m : Dict Row) (o : Obs) (hname : o.named)
    (hsup : 0 ≤ o.suppliedHits.getD 0)
    (hm : ∀ p ∈ m, 0 ≤ (p : String × Row).2.hits) :
    baseHits (dictGet o.url (applyObs m o)) =
      match o.suppliedHits with
      | some h => max (baseHits (dictGet o.url m)) h
      | none => baseHits (dictGet o.url m) := by
  cases o with
  | hitsO url ty a s hi =>
      obtain ⟨ha, hs⟩ := hname
      simp only [Obs.suppliedHits, Option.getD_some] at hsup
      simp only [Obs.url, Obs.suppliedHits]
      rcases hg : dictGet url m with _ | r0
      · simp only [applyObs, hg]
        rw [if_neg (by simp [ha, hs]), dictGet_insert_self]
        simp only [baseHits]
        exact (max_eq_right hsup).symm
      · simp only [applyObs, hg]
        rw [if_neg (by simp [ha, hs])]
        have h0 : 0 ≤ r0.hits := hm _ (dictGet_mem hg)
        by_cases hgt : r0.hits < hi
        · rw [if_pos ⟨by omega, hgt⟩, dictGet_insert_self]
          simp only [baseHits]
          exact (max_eq_right hgt.le).symm
        · rw [if_neg fun hx => hgt hx.2, hg]
          simp only [baseHits]
          exact (max_eq_left (le_of_not_lt hgt)).symm
  | ratingO url ty a s rat vo =>
      obtain ⟨ha, hs⟩ := hname
      simp only [Obs.url, Obs.suppliedHits]
      rcases hg : dictGet url m with _ | r0
      · simp only [applyObs, hg]
        rw [if_neg (by simp [ha, hs]), dictGet_insert_self]
        simp [baseHits]
      · simp only [applyObs, hg]
        rw [dictGet_insert_self]
        cases rat <;> cases vo <;> simp [baseHits]
  | rowO row =>
      simp only [Obs.suppliedHits, Option.getD_some] at hsup
      simp only [Obs.url, Obs.suppliedHits]
      rcases hg : dictGet row.url m with _ | r0
      · simp only [applyObs, hg]
        rw [dictGet_insert_self]
        simp only [baseHits]
        exact (max_eq_right hsup).symm
      · simp only [applyObs, hg]
        rw [dictGet_insert_self]
        have h0 : 0 ≤ r0.hits := hm _ (dictGet_mem hg)
        cases row.rating <;> cases row.votes <;>
          simp only [baseHits, apply_ite (Row.hits)] <;>
          exact truthy_update_eq_max h0

theorem suppliedHitsFor_cons_self {o : Obs} {u : String} (hu : o.url = u) {h : Int}
    (hs : o.suppliedHits = some h) (rest : List Obs) :
    suppliedHitsFor u (o :: rest) = h :: suppliedHitsFor u rest := by
  simp [suppliedHitsFor, List.filterMap_cons, hu, hs]

theorem suppliedHitsFor_cons_none {o : Obs} {u : String} (rest : List Obs)
    (hskip : (if o.url = u then o.suppliedHits else none) = none) :
    suppliedHitsFor u (o :: rest) = suppliedHitsFor u rest := by
  simp only [suppliedHitsFor, List.filterMap_cons, hskip]

theorem merge_hits_aux :
    ∀ (obs : List Obs) (m : Dict Row),
      (∀ o ∈ obs, o.named) →
      (∀ o ∈ obs, 0 ≤ o.suppliedHits.getD 0) →
      (∀ p ∈ m, 0 ≤ (p : String × Row).2.hits) →
      ∀ u r, dictGet u (obs.foldl applyObs m) = some r →
        r.hits = (suppliedHitsFor u obs).foldl max (baseHits (dictGet u m)) := by
  intro obs
  induction obs with
  | nil =>
      intro m _ _ _ u r h
      simp only [List.foldl_nil] at h
      simp [suppliedHitsFor, h, baseHits]
  | cons o rest ih =>
      intro m hnamed hnn hm u r hr
      rw [List.foldl_cons] at hr
      have hrec := ih (applyObs m o)
        (fun o' ho' => hnamed o' (List.mem_cons_of_mem _ ho'))
        (fun o' ho' => hnn o' (List.mem_cons_of_mem _ ho'))
        (applyObs_hits_nonneg hm (hnn o (List.mem_cons_self _ _))) u r hr
      by_cases hu : o.url = u
      · have hb := applyObs_baseHits m o (hnamed o (List.mem_cons_self _ _))
          (hnn o (List.mem_cons_self _ _)) hm
        rw [hu] at hb
        rcases hsup : o.suppliedHits with _ | h
        · rw [hsup] at hb
          rw [hrec, hb, suppliedHitsFor_cons_none rest (by simp [hu, hsup])]
        · rw [hsup] at hb
          rw [hrec, hb, suppliedHitsFor_cons_self hu hsup rest, List.foldl_cons]
      · rw [hrec, applyObs_get_ne hu m,
          suppliedHitsFor_cons_none rest (by simp [hu])]

/-- C1 (amended): over observation sequences in which every observation
carries both identity fields (so none is skipped) and every supplied
hits value is non-negative, the final record for each identifier has
hits equal to the maximum hits supplied by the observations for that
identifier (0 when none supplied one); and — unconditionally — applying
any observation to an existing record never decreases its hits. -/
theorem hits_monotone_max :
    (∀ (obs : List Obs), (∀ o ∈ obs, o.named) →
      (∀ o ∈ obs, 0 ≤ o.suppliedHits.getD 0) →
      ∀ u r, dictGet u (mergeObs obs) = some r → r.hits = maxSuppliedHits u obs) ∧
    (∀ (m : Dict Row) (o : Obs) (u : String) (r r' : Row),
      dictGet u m = some r → dictGet u (applyObs m o) = some r' → r.hits ≤ r'.hits) := by
  constructor
  · intro obs hnamed hnn u r hr
    have := merge_hits_aux obs [] hnamed hnn (by simp) u r hr
    simpa [maxSuppliedHits, baseHits, dictGet] using this
  · intro m o u r r' hr hr'
    by_cases hu : o.url = u
    · cases o with
      | hitsO url ty a s hi =>
          simp only [Obs.url] at hu
          subst hu
          simp only [applyObs] at hr'
          split at hr'
          · rw [hr] at hr'
            rw [Option.some.inj hr']
          · simp only [hr] at hr'
            split at hr'
            next hcond =>
              rw [dictGet_insert_self] at hr'
              rw [← Option.some.inj hr']
              exact le_of_lt hcond.2
            next hcond =>
              rw [hr] at hr'
              rw [Option.some.inj hr']
      | ratingO url ty a s rat vo =>
          simp only [Obs.url] at hu
          subst hu
          simp only [applyObs, hr] at hr'
          rw [dictGet_insert_self] at hr'
          rw [← Option.some.inj hr']
          cases rat <;> cases vo <;> exact le_refl _
      | rowO row =>
          simp only [Obs.url] at hu
          simp only [applyObs] at hr'
          rw [hu, hr] at hr'
          simp only at hr'
          rw [dictGet_insert_self] at hr'
          rw [← Option.some.inj hr']
          cases row.rating <;> cases row.votes <;>
            simp only [apply_ite (Row.hits)] <;> split <;>
            first
              | exact le_refl _
              | next hcond => exact le_of_lt hcond.2
    · rw [applyObs_get_ne hu m, hr] at hr'
      rw [Option.some.inj hr']

/-- C1 witness: for a fully-named observation sequence supplying hits
7, then a rating-only observation, then hits 4, the final record's hits
equal the maximum supplied value 7. -/
theorem hits_monotone_max_witness :
    (⟨"A", "S", "tab", "u", 7, some 1, none⟩ : Row).hits =
      maxSuppliedHits "u" [Obs.hitsO "u" "tab" "A" "S" 7,
        Obs.ratingO "u" "tab" "A" "S" (some 1) none, Obs.hitsO "u" "tab" "A" "S" 4] :=
  hits_monotone_max.1
    [Obs.hitsO "u" "tab" "A" "S" 7, Obs.ratingO "u" "tab" "A" "S" (some 1) none,
      Obs.hitsO "u" "tab" "A" "S" 4]
    (by decide) (by decide) "u" ⟨"A", "S", "tab", "u", 7, some 1, none⟩ (by decide)

end UG
